import Mathlib

/-!
Verification of the bro-awk log-filtering pipeline.

This file is a shallow embedding of the Go sources of the repository
(`filters/filters.go`, `qreader/qreader.go`, `logreader/logreader.go`).
Go strings and byte slices are modelled as `List Char` (the inputs in
question are ASCII log data, so the byte/rune distinction is irrelevant
to every property proved here); Go's `nil`-able returns and the two
abnormal exits the code can take (`os.Exit(1)` on a missing field,
an index-out-of-range panic on a short record or empty line) are made
explicit with `Except`.
-/

/-- Go strings / byte slices, modelled as lists of characters. -/
abbrev GoStr := List Char

/-- Convenience conversion from a Lean string literal. -/
def str (s : String) : GoStr := s.data

/-- The newline byte the chunker scans for (`'\n'` in the Go source). -/
def nlc : Char := '\n'

/-- The tab delimiter of Bro logs (`"\t"` in the Go source). -/
def tabc : Char := '\t'

/-- `strings.Split(s, <single char c>)`: split a list at every occurrence
of `c`.  Like Go's `strings.Split`, the result is never empty and an
empty input yields `[[]]`. -/
def splitOnChar (c : Char) : GoStr → List GoStr
  | [] => [[]]
  | x :: xs =>
    if x = c then [] :: splitOnChar c xs
    else
      match splitOnChar c xs with
      | [] => [[x]]
      | g :: gs => (x :: g) :: gs

theorem splitOnChar_ne_nil (c : Char) (s : GoStr) : splitOnChar c s ≠ [] := by
  induction s with
  | nil => simp [splitOnChar]
  | cons x xs ih =>
    by_cases hx : x = c
    · simp [splitOnChar, hx]
    · rcases hg : splitOnChar c xs with _ | ⟨g, gs⟩
      · exact absurd hg ih
      · simp [splitOnChar, hx, hg]

theorem splitOnChar_append_cons (c : Char) (a b : GoStr) :
    splitOnChar c (a ++ c :: b) = splitOnChar c a ++ splitOnChar c b := by
  induction a with
  | nil => simp [splitOnChar]
  | cons x xs ih =>
    by_cases hx : x = c
    · simp [splitOnChar, hx, ih]
    · rcases hg : splitOnChar c xs with _ | ⟨g, gs⟩
      · exact absurd hg (splitOnChar_ne_nil c xs)
      · simp only [List.cons_append, splitOnChar, hx, if_false, ih, hg,
          List.append_eq, List.cons_append]

--------------------------------------------------------------------------------
-- Chunked Line Source (Reader.Start in qreader.go / logreader.go)
--------------------------------------------------------------------------------

/-- The inner scan of `Reader.Start`: starting from `end_it = length - 1`
and walking down, stop with `none` as soon as `end_it = 0` (so a newline
sitting at the first byte of a block is never found), otherwise report the
first offset holding `'\n'`. -/
def findNlAux (buffer : GoStr) : Nat → Option Nat
  | 0 => none
  | e + 1 => if buffer[e + 1]? = some nlc then some (e + 1) else findNlAux buffer e

/-- The backward newline scan of `Reader.Start`, started at the block's
last byte. -/
def findNl (buffer : GoStr) : Option Nat := findNlAux buffer (buffer.length - 1)

/-- One iteration of the read loop of `Reader.Start`, acting on the current
carry (`leftovers` in the source) and the freshly read block: if the scan
finds a newline at offset `i`, emit `leftovers ++ buffer[:i]` and keep
`buffer[i+1:]`; otherwise emit nothing and append the whole block to the
carry. -/
def processBlock (leftovers buffer : GoStr) : Option GoStr × GoStr :=
  match findNl buffer with
  | none => (none, leftovers ++ buffer)
  | some i => (some (leftovers ++ buffer.take i), buffer.drop (i + 1))

/-- The whole read loop of `Reader.Start` over the successive read blocks:
returns the emitted chunks in order together with the final carry, which
the source silently drops when the stream is exhausted. -/
def readerRun (leftovers : GoStr) : List GoStr → List GoStr × GoStr
  | [] => ([], leftovers)
  | b :: bs =>
    match processBlock leftovers b with
    | (none, l2) => readerRun l2 bs
    | (some c, l2) =>
      let r := readerRun l2 bs
      (c :: r.1, r.2)

/-- Fuel-indexed worker for `blocksOf`; the fuel only serves structural
termination and any amount at least `s.length` yields the same result. -/
def blocksOfAux (b : Nat) : Nat → GoStr → List GoStr
  | _, [] => []
  | 0, _ :: _ => []
  | fuel + 1, x :: xs => ((x :: xs).take (b + 1)) :: blocksOfAux b fuel (xs.drop b)

/-- The successive blocks a sequence of `reader.Read` calls with block size
`bsize` delivers on a stream: each call returns `min bsize remaining` bytes
and a zero-length read ends the loop.  A block size of `0` is never produced
by the program (`NewQreader` replaces non-positive sizes with 8192). -/
def blocksOf (bsize : Nat) (s : GoStr) : List GoStr :=
  match bsize with
  | 0 => []
  | b + 1 => blocksOfAux b s.length s

/-- The chunker pipeline on a whole stream: chunks emitted and final
(dropped) carry. -/
def readerEmits (bsize : Nat) (s : GoStr) : List GoStr × GoStr :=
  readerRun [] (blocksOf bsize s)

/-- The ordered sequence of lines obtained by re-splitting each emitted
chunk on newlines, concatenated. -/
def emittedLinesOf (bsize : Nat) (s : GoStr) : List GoStr :=
  ((readerEmits bsize s).1.map (splitOnChar nlc)).flatten

theorem findNlAux_some (buffer : GoStr) :
    ∀ e i, findNlAux buffer e = some i →
      1 ≤ i ∧ i ≤ e ∧ buffer[i]? = some nlc ∧
        ∀ j, i < j → j ≤ e → buffer[j]? ≠ some nlc := by
  intro e
  induction e with
  | zero => intro i h; simp [findNlAux] at h
  | succ e ih =>
    intro i h
    simp only [findNlAux] at h
    by_cases hc : buffer[e + 1]? = some nlc
    · rw [if_pos hc] at h
      obtain rfl : e + 1 = i := Option.some_injective _ h
      refine ⟨Nat.succ_le_succ (Nat.zero_le e), le_refl _, hc, ?_⟩
      intro j hj hj'
      omega
    · rw [if_neg hc] at h
      obtain ⟨h1, h2, h3, h4⟩ := ih i h
      refine ⟨h1, Nat.le_succ_of_le h2, h3, ?_⟩
      intro j hj hj'
      rcases Nat.lt_or_ge j (e + 1) with hlt | hge
      · exact h4 j hj (Nat.lt_succ_iff.mp hlt)
      · obtain rfl : j = e + 1 := le_antisymm hj' hge
        exact hc

theorem findNlAux_none (buffer : GoStr) :
    ∀ e, findNlAux buffer e = none →
      ∀ j, 1 ≤ j → j ≤ e → buffer[j]? ≠ some nlc := by
  intro e
  induction e with
  | zero => intro _ j hj hj'; omega
  | succ e ih =>
    intro h j hj hj'
    simp only [findNlAux] at h
    by_cases hc : buffer[e + 1]? = some nlc
    · rw [if_pos hc] at h; exact absurd h (by simp)
    · rw [if_neg hc] at h
      rcases Nat.lt_or_ge j (e + 1) with hlt | hge
      · exact ih h j hj (Nat.lt_succ_iff.mp hlt)
      · obtain rfl : j = e + 1 := le_antisymm hj' hge
        exact hc

theorem findNl_some (buffer : GoStr) (i : Nat) (h : findNl buffer = some i) :
    1 ≤ i ∧ buffer[i]? = some nlc := by
  obtain ⟨h1, _, h3, _⟩ := findNlAux_some buffer (buffer.length - 1) i h
  exact ⟨h1, h3⟩

theorem processBlock_none (L b l2 : GoStr)
    (h : processBlock L b = (none, l2)) : l2 = L ++ b := by
  unfold processBlock at h
  cases hf : findNl b with
  | none => rw [hf] at h; exact (Prod.mk.injEq _ _ _ _ ▸ h).2.symm
  | some i => rw [hf] at h; exact absurd (Prod.mk.injEq _ _ _ _ ▸ h).1 (by simp)

theorem processBlock_some (L b c l2 : GoStr)
    (h : processBlock L b = (some c, l2)) : c ++ nlc :: l2 = L ++ b := by
  unfold processBlock at h
  cases hf : findNl b with
  | none => rw [hf] at h; exact absurd (Prod.mk.injEq _ _ _ _ ▸ h).1 (by simp)
  | some i =>
    rw [hf] at h
    obtain ⟨hc, hl⟩ := Prod.mk.injEq _ _ _ _ ▸ h
    obtain ⟨_, hnl⟩ := findNl_some b i hf
    have hilt : i < b.length := by
      rcases List.getElem?_eq_some_iff.mp hnl with ⟨hlt, _⟩
      exact hlt
    have hdrop : b.drop i = nlc :: b.drop (i + 1) := by
      rw [List.drop_eq_getElem_cons hilt]
      congr 1
      rcases List.getElem?_eq_some_iff.mp hnl with ⟨_, hv⟩
      exact hv
    have hb : b.take i ++ nlc :: b.drop (i + 1) = b := by
      rw [← hdrop, List.take_append_drop]
    have hc' : c = L ++ b.take i := (Option.some_injective _ hc).symm
    rw [hc', ← hl, List.append_assoc, hb]

/-- Rebuild a byte stream from emitted chunks and a final carry: each chunk
stands for its bytes followed by the newline the scan consumed. -/
def joinNl (cs : List GoStr) (lf : GoStr) : GoStr :=
  cs.foldr (fun c acc => c ++ nlc :: acc) lf

theorem readerRun_join (blocks : List GoStr) :
    ∀ L : GoStr,
      joinNl (readerRun L blocks).1 (readerRun L blocks).2 = L ++ blocks.flatten := by
  induction blocks with
  | nil => intro L; simp [readerRun, joinNl]
  | cons b bs ih =>
    intro L
    rcases hp : processBlock L b with ⟨oc, l2⟩
    cases oc with
    | none =>
      have hl2 : l2 = L ++ b := processBlock_none L b l2 hp
      simp only [readerRun, hp, List.flatten_cons, ← List.append_assoc, ← hl2]
      exact ih l2
    | some c =>
      have hcb : c ++ nlc :: l2 = L ++ b := processBlock_some L b c l2 hp
      simp only [readerRun, hp, List.flatten_cons]
      have : joinNl (c :: (readerRun l2 bs).1) (readerRun l2 bs).2 =
          c ++ nlc :: joinNl (readerRun l2 bs).1 (readerRun l2 bs).2 := by
        simp [joinNl]
      rw [this, ih l2, ← List.append_assoc, ← hcb]
      simp

theorem splitOnChar_joinNl (cs : List GoStr) (lf : GoStr) :
    splitOnChar nlc (joinNl cs lf) =
      (cs.map (splitOnChar nlc)).flatten ++ splitOnChar nlc lf := by
  induction cs with
  | nil => simp [joinNl]
  | cons c cstl ih =>
    have : joinNl (c :: cstl) lf = c ++ nlc :: joinNl cstl lf := by simp [joinNl]
    rw [this, splitOnChar_append_cons, ih]
    simp

theorem blocksOfAux_flatten (b : Nat) :
    ∀ fuel (s : GoStr), s.length ≤ fuel → (blocksOfAux b fuel s).flatten = s := by
  intro fuel
  induction fuel with
  | zero =>
    intro s hs
    obtain rfl : s = [] := List.length_eq_zero.mp (Nat.le_zero.mp hs)
    simp [blocksOfAux]
  | succ n ih =>
    intro s hs
    cases s with
    | nil => simp [blocksOfAux]
    | cons x xs =>
      rw [blocksOfAux]
      simp only [List.flatten_cons]
      have hlen : (xs.drop b).length ≤ n := by
        simp only [List.length_drop]
        simp only [List.length_cons] at hs
        omega
      rw [ih (xs.drop b) hlen]
      have : (x :: xs).take (b + 1) = x :: xs.take b := rfl
      rw [this]
      simp [List.take_append_drop]

theorem blocksOf_flatten (b : Nat) (s : GoStr) :
    (blocksOf (b + 1) s).flatten = s :=
  blocksOfAux_flatten b s.length s (le_refl _)

/-- Main chunker lemma: the line sequence of the whole stream decomposes
as the lines of the emitted chunks (in order) followed by the lines of the
final, dropped carry. -/
theorem reader_lines (bsize : Nat) (hb : 1 ≤ bsize) (s : GoStr) :
    splitOnChar nlc s =
      emittedLinesOf bsize s ++ splitOnChar nlc (readerEmits bsize s).2 := by
  obtain ⟨b, rfl⟩ : ∃ b, bsize = b + 1 := ⟨bsize - 1, by omega⟩
  have hjoin := readerRun_join (blocksOf (b + 1) s) []
  rw [List.nil_append, blocksOf_flatten b s] at hjoin
  calc splitOnChar nlc s
      = splitOnChar nlc (joinNl (readerRun [] (blocksOf (b + 1) s)).1
          (readerRun [] (blocksOf (b + 1) s)).2) := by rw [hjoin]
    _ = _ := by
        rw [splitOnChar_joinNl]
        rfl

--------------------------------------------------------------------------------
-- Filter Engine (filters/filters.go)
--------------------------------------------------------------------------------

/-- The two abnormal exits filter evaluation can take in the Go source:
`Linedata.get` prints a diagnostic and calls `os.Exit(1)` when the field is
absent from the index map, and the unguarded `self[idx]` / `ld[idx]` /
`line[0]` indexing panics when the index is past the slice's end. -/
inductive Fault where
  | fatalMissingField (field : GoStr)
  | panicIndex
deriving DecidableEq

/-- The global `indexmap` built by `FilterSet.ApplyHeader`, passed
explicitly here: field name to column position. -/
abbrev Indexmap := List (GoStr × Nat)

/-- A tab-split record (`Linedata` wraps `[]string` in the source). -/
abbrev Linedata := List GoStr

/-- `ApplyHeader`: `indexmap[field] = idx` for each header field in order,
so a duplicated header name keeps its last position (Go map overwrite);
the reversal makes `List.lookup` see the last binding first. -/
def applyHeader (header : List GoStr) : Indexmap :=
  (header.enum.map (fun p => (p.2, p.1))).reverse

/-- `Linedata.get`: look the field up in the index map, exiting fatally when
it is absent, then index into the record — unguarded in the source, hence a
panic when the record has fewer columns than the header. -/
def Linedata.get (self : Linedata) (im : Indexmap) (field : GoStr) :
    Except Fault GoStr :=
  match List.lookup field im with
  | none => .error (.fatalMissingField field)
  | some idx =>
    match self[idx]? with
    | none => .error .panicIndex
    | some v => .ok v

/-- The inner loop of `Filter.Passes` / `RegexFilter.Passes` for one field:
compare the field's value against every configured value, returning
`ok false` at the first failing comparison.  `data.get(field)` is evaluated
inside this loop, exactly as in the source, so an empty value list never
touches the record. -/
def passesVals {α : Type} (im : Indexmap) (cmp : GoStr → α → Bool)
    (data : Linedata) (field : GoStr) : List α → Except Fault Bool
  | [] => .ok true
  | v :: vs =>
    match Linedata.get data im field with
    | .error e => .error e
    | .ok s => if cmp s v then passesVals im cmp data field vs else .ok false

/-- The outer loop of `Filter.Passes` / `RegexFilter.Passes`: every field,
against every value (AND across both axes). -/
def filterPasses {α : Type} (im : Indexmap) (cmp : GoStr → α → Bool)
    (data : Linedata) : List GoStr → List α → Except Fault Bool
  | [], _ => .ok true
  | f :: fs, vals =>
    match passesVals im cmp data f vals with
    | .ok true => filterPasses im cmp data fs vals
    | r => r

/-- The comparison function `NewFilter` installs for `=`. -/
def cmpEq (a b : GoStr) : Bool := a == b

/-- The comparison function `NewFilter` installs for `!=`. -/
def cmpNe (a b : GoStr) : Bool := !(a == b)

/-- Modelled from the spec: the repository delegates `~`/`!~` matching to
Go's `regexp` package, which is not part of this repository.  The model
covers the pattern fragment exercised here — a literal character core with
an optional leading `^` and trailing `$` anchor — for which Go's
`MatchString` (does any substring match?) degenerates to the four
equality / affix / infix tests below. -/
structure GoRegex where
  anchorStart : Bool
  core : GoStr
  anchorEnd : Bool
deriving DecidableEq

/-- Modelled from the spec: `regexp.Compile` on a literal pattern with
optional `^` / `$` anchors (compilation happens once, in `NewFilter`). -/
def regexpCompile (pattern : GoStr) : GoRegex :=
  let p1 := match pattern with
    | '^' :: rest => (true, rest)
    | p => (false, p)
  match p1.2.getLast? with
  | some '$' => ⟨p1.1, p1.2.dropLast, true⟩
  | _ => ⟨p1.1, p1.2, false⟩

/-- Does `p` occur as a contiguous run inside `s`?  (Executable substring
test used for the unanchored branch of `MatchString`.) -/
def containsRun (p : GoStr) : GoStr → Bool
  | [] => p == []
  | x :: rest => p.isPrefixOf (x :: rest) || containsRun p rest

/-- Modelled from the spec: Go's `MatchString` on the anchored-literal
fragment — it reports whether the pattern matches anywhere in `s`. -/
def GoRegex.MatchString (re : GoRegex) (s : GoStr) : Bool :=
  match re.anchorStart, re.anchorEnd with
  | true, true => re.core == s
  | true, false => re.core.isPrefixOf s
  | false, true => re.core.isSuffixOf s
  | false, false => containsRun re.core s

/-- The comparison function `NewFilter` installs for `~`. -/
def cmpMatch (a : GoStr) (re : GoRegex) : Bool := re.MatchString a

/-- The comparison function `NewFilter` installs for `!~`. -/
def cmpNotMatch (a : GoStr) (re : GoRegex) : Bool := !(re.MatchString a)

/-- A constructed filter: `NewFilter` produces either a literal
(`Filter`) or a regex (`RegexFilter`) rule, with its field list, value
list and negation flag. -/
inductive BaseFilter where
  | lit (fields : List GoStr) (values : List GoStr) (negate : Bool)
  | rex (fields : List GoStr) (values : List GoRegex) (negate : Bool)

/-- `Filter.Passes` / `RegexFilter.Passes`, dispatching on the filter kind
with the comparison function `NewFilter` installed. -/
def BaseFilter.Passes (im : Indexmap) (f : BaseFilter) (data : Linedata) :
    Except Fault Bool :=
  match f with
  | .lit fs vs neg => filterPasses im (if neg then cmpNe else cmpEq) data fs vs
  | .rex fs vs neg =>
    filterPasses im (if neg then cmpNotMatch else cmpMatch) data fs vs

/-- `FilterSet.Passes`: a record passes the set iff it passes every
contained filter, short-circuiting on the first failure. -/
def FilterSet.Passes (im : Indexmap) : List BaseFilter → Linedata →
    Except Fault Bool
  | [], _ => .ok true
  | f :: fs, data =>
    match BaseFilter.Passes im f data with
    | .ok true => FilterSet.Passes im fs data
    | r => r

--------------------------------------------------------------------------------
-- Row Processor and projection (Parser.Parse / Qreader.Parse in qreader.go)
--------------------------------------------------------------------------------

/-- The inner scan of `Qreader.Parse` resolving one requested print field:
`PrintIndices[i1]` starts at the zero value and is overwritten by every
matching header position, so the last match wins and an absent field
silently stays `0`. -/
def resolveField (header : List GoStr) (f : GoStr) : Nat :=
  header.enum.foldl (fun acc p => if f == p.2 then p.1 else acc) 0

/-- `Qreader.Parse`'s `PrintIndices` computation over all requested
fields. -/
def computePrintIndices (printFields header : List GoStr) : List Nat :=
  printFields.map (resolveField header)

/-- The projection loop of `Parser.Parse`: `to_print[i] = ld[idx]` for each
requested index, unguarded in the source, hence a panic on a record shorter
than a requested index. -/
def projectFields (printIndices : List Nat) (ld : Linedata) :
    Except Fault (List GoStr) :=
  match printIndices with
  | [] => .ok []
  | i :: is =>
    match ld[i]? with
    | none => .error .panicIndex
    | some v =>
      match projectFields is ld with
      | .error e => .error e
      | .ok vs => .ok (v :: vs)

/-- One iteration of the line loop of `Parser.Parse`: `line[0] == '#'` is
evaluated on the raw line with no length guard (a zero-length line
panics); comment lines are skipped; otherwise the line is tab-split,
filtered, and on success either projected-and-joined or emitted whole. -/
def parseLine (im : Indexmap) (filters : List BaseFilter)
    (selectivePrint : Bool) (printIndices : List Nat) (line : GoStr) :
    Except Fault (Option GoStr) :=
  match line with
  | [] => .error .panicIndex
  | c :: _ =>
    if c = '#' then .ok none
    else
      let ld : Linedata := splitOnChar tabc line
      match FilterSet.Passes im filters ld with
      | .error e => .error e
      | .ok false => .ok none
      | .ok true =>
        if selectivePrint then
          match projectFields printIndices ld with
          | .error e => .error e
          | .ok ps => .ok (some (List.intercalate [tabc] ps))
        else .ok (some line)

/-- The line loop of `Parser.Parse` over the lines of one chunk, collecting
the emitted output lines in order; a panic or fatal exit aborts the task. -/
def parseLines (im : Indexmap) (filters : List BaseFilter)
    (selectivePrint : Bool) (printIndices : List Nat) :
    List GoStr → Except Fault (List GoStr)
  | [] => .ok []
  | l :: ls =>
    match parseLine im filters selectivePrint printIndices l with
    | .error e => .error e
    | .ok none => parseLines im filters selectivePrint printIndices ls
    | .ok (some out) =>
      match parseLines im filters selectivePrint printIndices ls with
      | .error e => .error e
      | .ok outs => .ok (out :: outs)

/-- `Parser.Parse` on one chunk: split the chunk at newlines and run the
line loop. -/
def parseChunk (im : Indexmap) (filters : List BaseFilter)
    (selectivePrint : Bool) (printIndices : List Nat) (chunk : GoStr) :
    Except Fault (List GoStr) :=
  parseLines im filters selectivePrint printIndices (splitOnChar nlc chunk)

--------------------------------------------------------------------------------
-- Filter evaluation lemmas
--------------------------------------------------------------------------------

theorem passesVals_ok_true_iff {α : Type} (im : Indexmap)
    (cmp : GoStr → α → Bool) (data : Linedata) (f : GoStr) (vals : List α) :
    passesVals im cmp data f vals = .ok true ↔
      ∀ v ∈ vals, ∃ s, Linedata.get data im f = .ok s ∧ cmp s v = true := by
  induction vals with
  | nil => simp [passesVals]
  | cons v vs ih =>
    cases hg : Linedata.get data im f with
    | error e =>
      simp only [passesVals, hg]
      constructor
      · intro h; exact absurd h (by simp)
      · intro h
        obtain ⟨s, hs, _⟩ := h v (List.mem_cons_self v vs)
        exact absurd hs (by simp)
    | ok s =>
      by_cases hc : cmp s v = true
      · simp only [passesVals, hg, hc, if_true, ih]
        constructor
        · intro h v' hv'
          rcases List.mem_cons.mp hv' with rfl | hmem
          · exact ⟨s, rfl, hc⟩
          · exact h v' hmem
        · intro h v' hv'
          exact h v' (List.mem_cons_of_mem v hv')
      · simp only [passesVals, hg, hc, if_false]
        constructor
        · intro h; exact absurd h (by simp)
        · intro h
          obtain ⟨s', hs', hc'⟩ := h v (List.mem_cons_self v vs)
          obtain rfl : s = s' := by
            have : Except.ok (ε := Fault) s = Except.ok s' := hs'
            simpa using this
          exact absurd hc' hc

theorem filterPasses_ok_true_iff {α : Type} (im : Indexmap)
    (cmp : GoStr → α → Bool) (data : Linedata) (fields : List GoStr)
    (vals : List α) :
    filterPasses im cmp data fields vals = .ok true ↔
      ∀ f ∈ fields, ∀ v ∈ vals,
        ∃ s, Linedata.get data im f = .ok s ∧ cmp s v = true := by
  induction fields with
  | nil => simp [filterPasses]
  | cons f fs ih =>
    constructor
    · intro h
      rw [filterPasses] at h
      cases hv : passesVals im cmp data f vals with
      | error e => rw [hv] at h; exact absurd h (by simp)
      | ok bb =>
        cases bb with
        | false => rw [hv] at h; exact absurd h (by simp)
        | true =>
          rw [hv] at h
          intro g hg v hvv
          rcases List.mem_cons.mp hg with rfl | hgs
          · exact (passesVals_ok_true_iff im cmp data g vals).mp hv v hvv
          · exact (ih.mp h) g hgs v hvv
    · intro h
      rw [filterPasses]
      have hf : passesVals im cmp data f vals = .ok true :=
        (passesVals_ok_true_iff im cmp data f vals).mpr
          (fun v hvv => h f (List.mem_cons_self f fs) v hvv)
      rw [hf]
      exact ih.mpr (fun g hg v hvv => h g (List.mem_cons_of_mem f hg) v hvv)

/-- Claim C1: for every filter (literal or regex, i.e. for any comparison
function over any compiled value type) and every record, `Passes` returns
`true` iff for every field in the filter's field list and every value in
its value list the comparison holds between the record's value at that
field and that value (AND across both axes); and in particular a
single-field `=` filter with two distinct values never passes any
record. -/
theorem filter_passes_and_of_cross_product :
    (∀ (α : Type) (im : Indexmap) (cmp : GoStr → α → Bool)
        (fields : List GoStr) (vals : List α) (data : Linedata),
      filterPasses im cmp data fields vals = .ok true ↔
        ∀ f ∈ fields, ∀ v ∈ vals,
          ∃ s, Linedata.get data im f = .ok s ∧ cmp s v = true)
    ∧ (∀ (im : Indexmap) (f v1 v2 : GoStr) (data : Linedata), v1 ≠ v2 →
        BaseFilter.Passes im (.lit [f] [v1, v2] false) data ≠ .ok true) := by
  constructor
  · intro α im cmp fields vals data
    exact filterPasses_ok_true_iff im cmp data fields vals
  · intro im f v1 v2 data hne h
    have h' : filterPasses im cmpEq data [f] [v1, v2] = .ok true := h
    have hall := (filterPasses_ok_true_iff im cmpEq data [f] [v1, v2]).mp h'
    obtain ⟨s1, hs1, hc1⟩ := hall f (by simp) v1 (by simp)
    obtain ⟨s2, hs2, hc2⟩ := hall f (by simp) v2 (by simp)
    rw [hs1] at hs2
    obtain rfl : s1 = s2 := Option.some_injective _ (by simpa using hs2)
    have e1 : s1 = v1 := by simpa [cmpEq] using hc1
    have e2 : s1 = v2 := by simpa [cmpEq] using hc2
    exact hne (e1 ▸ e2)

/-- Witness for C1: the two-distinct-values conjunct applied at a concrete
filter and record. -/
theorem filter_passes_and_of_cross_product_witness :
    str "x" ≠ str "y" ∧
      BaseFilter.Passes [(str "a", 0)]
        (.lit [str "a"] [str "x", str "y"] false) [str "x"] ≠ .ok true :=
  ⟨by decide,
    filter_passes_and_of_cross_product.2 [(str "a", 0)] (str "a") (str "x")
      (str "y") [str "x"] (by decide)⟩

--------------------------------------------------------------------------------
-- Claims about the Chunked Line Source
--------------------------------------------------------------------------------

/-- Counterexample to C2 as stated: on the stream `"ab\n"` with block size
2 the chunker emits nothing at all, so the newline-terminated line `"ab"`
— not a final line lacking a trailing newline — is lost (its newline
arrives as the first byte of the second block, which the backward scan
treats as "no newline found", and the carry is dropped at end of
stream). -/
theorem chunker_drops_terminated_line :
    (readerEmits 2 (str "ab\n")).1 = [] ∧
      splitOnChar nlc (str "ab\n") = [str "ab", []] ∧
      emittedLinesOf 2 (str "ab\n") ≠ [str "ab"] :=
  ⟨rfl, rfl, by decide⟩

/-- Claim C2 (amended): for every input stream and every block size ≥ 1,
splitting the whole stream on newlines equals the concatenation of the
re-split emitted chunks followed by the lines of the final carry; the
emitted lines are therefore an in-order prefix of the stream's lines and
the dropped suffix is exactly what remains in the carry at end of stream —
always including the final line lacking a trailing newline, but possibly
also earlier newline-terminated lines whose newline fell on the first byte
of a block. -/
theorem chunker_lines_decomposition (bsize : Nat) (hb : 1 ≤ bsize)
    (s : GoStr) :
    splitOnChar nlc s =
      emittedLinesOf bsize s ++ splitOnChar nlc (readerEmits bsize s).2 :=
  reader_lines bsize hb s

/-- Witness for C2's amended theorem at block size 2 on `"a\nb"`. -/
theorem chunker_lines_decomposition_witness :
    1 ≤ 2 ∧
      splitOnChar nlc (str "a\nb") =
        emittedLinesOf 2 (str "a\nb") ++
          splitOnChar nlc (readerEmits 2 (str "a\nb")).2 :=
  ⟨by decide, chunker_lines_decomposition 2 (by decide) (str "a\nb")⟩

/-- Counterexample to C5 as stated: on the stream `"a\nb\n"` the line
`"a"` is emitted with block size 2 but not with block size 1 (with block
size 1 every block has length 1, the backward scan starts and ends at
offset 0 and never finds a newline, so nothing is ever emitted); the set of
emitted lines therefore depends on the block size. -/
theorem chunker_blocksize_dependence :
    str "a" ∈ emittedLinesOf 2 (str "a\nb\n") ∧
      str "a" ∉ emittedLinesOf 1 (str "a\nb\n") := by
  decide

/-- Claim C5 (amended): block-size invariance fails (see the
counterexample), but for every block size ≥ 1 the emitted lines form an
in-order prefix of the stream's line sequence, so every emitted line is a
line of the original stream; which suffix is dropped depends on the block
size. -/
theorem chunker_emits_prefix_of_lines (bsize : Nat) (hb : 1 ≤ bsize)
    (s : GoStr) :
    ∃ rest, emittedLinesOf bsize s ++ rest = splitOnChar nlc s :=
  ⟨splitOnChar nlc (readerEmits bsize s).2, (reader_lines bsize hb s).symm⟩

/-- Witness for C5's amended theorem at block size 3 on `"ab\ncd\n"`. -/
theorem chunker_emits_prefix_of_lines_witness :
    1 ≤ 3 ∧
      ∃ rest, emittedLinesOf 3 (str "ab\ncd\n") ++ rest =
        splitOnChar nlc (str "ab\ncd\n") :=
  ⟨by decide, chunker_emits_prefix_of_lines 3 (by decide) (str "ab\ncd\n")⟩

/-- Claim C6: for every read block, the backward scan reports the
right-most newline at an offset at least 1 — in which case the chunker
emits `carry ++ block[0:i]` and keeps `block[i+1:]` as the new carry — and
otherwise (no newline at any offset from `length - 1` down to 1; a newline
at offset 0 counts as not found) it appends the whole block to the carry
and emits nothing. -/
theorem chunker_block_scan_spec (leftovers block : GoStr) :
    (∀ i, findNl block = some i →
        1 ≤ i ∧ block[i]? = some nlc ∧
          (∀ j, i < j → block[j]? ≠ some nlc) ∧
          processBlock leftovers block =
            (some (leftovers ++ block.take i), block.drop (i + 1)))
    ∧ (findNl block = none →
        (∀ j, 1 ≤ j → block[j]? ≠ some nlc) ∧
          processBlock leftovers block = (none, leftovers ++ block)) := by
  constructor
  · intro i h
    obtain ⟨h1, h2, h3, h4⟩ := findNlAux_some block (block.length - 1) i h
    have hlen : i < block.length := (List.getElem?_eq_some_iff.mp h3).1
    refine ⟨h1, h3, ?_, ?_⟩
    · intro j hij
      by_cases hjl : j ≤ block.length - 1
      · exact h4 j hij hjl
      · intro hcon
        have : j < block.length := (List.getElem?_eq_some_iff.mp hcon).1
        omega
    · unfold processBlock
      rw [h]
  · intro h
    have hnone := findNlAux_none block (block.length - 1) h
    refine ⟨?_, ?_⟩
    · intro j hj
      by_cases hjl : j ≤ block.length - 1
      · exact hnone j hj hjl
      · intro hcon
        have : j < block.length := (List.getElem?_eq_some_iff.mp hcon).1
        omega
    · unfold processBlock
      rw [h]

/-- Witness for C6 at the block `"x\ny\nz"` (right-most newline at offset
3) with carry `"c"`. -/
theorem chunker_block_scan_spec_witness :
    findNl (str "x\ny\nz") = some 3 ∧
      processBlock (str "c") (str "x\ny\nz") =
        (some (str "c" ++ (str "x\ny\nz").take 3), (str "x\ny\nz").drop 4) :=
  ⟨rfl,
    ((chunker_block_scan_spec (str "c") (str "x\ny\nz")).1 3 rfl).2.2.2⟩

--------------------------------------------------------------------------------
-- Claims about the Row Processor and field resolution
--------------------------------------------------------------------------------

/-- Claim C3 (the code contradicts it): the comment-marker check
`line[0] == '#'` carries no length guard, so a zero-length line is an
out-of-bounds access and the row-processing task panics instead of
skipping the empty line: every parameterisation panics on the empty line,
and a concrete chunk containing an empty line aborts with the panic even
though its first line was processed normally. -/
theorem parse_empty_line_panics :
    (∀ (im : Indexmap) (filters : List BaseFilter) (sp : Bool)
        (pi : List Nat), parseLine im filters sp pi [] = .error .panicIndex)
    ∧ parseChunk [] [] false [] (str "a\n\nb") = .error .panicIndex :=
  ⟨fun _ _ _ _ => rfl, rfl⟩

theorem resolveField_enumFrom (f : GoStr) :
    ∀ (l : List GoStr) (n acc : Nat), (∀ h ∈ l, f ≠ h) →
      (l.enumFrom n).foldl (fun acc p => if f == p.2 then p.1 else acc) acc =
        acc := by
  intro l
  induction l with
  | nil => intro n acc _; rfl
  | cons x xs ih =>
    intro n acc hnot
    have hx : (f == x) = false := by
      have : f ≠ x := hnot x (List.mem_cons_self x xs)
      simpa using this
    simp only [List.enumFrom, List.foldl_cons, hx, Bool.false_eq_true,
      if_false]
    exact ih (n + 1) acc (fun h hm => hnot h (List.mem_cons_of_mem x hm))

/-- Counterexample to C4 as stated: the projection field `"bogus"` is
absent from the header `[ts, proto]`, yet processing does not fail —
`Qreader.Parse` leaves the print index at its zero value, so the record
`"1.0\ttcp"` is emitted with the first column's value `"1.0"` (a wrong
column) instead of a fatal diagnostic. -/
theorem projection_missing_field_not_fatal :
    str "bogus" ∉ [str "ts", str "proto"] ∧
      computePrintIndices [str "bogus"] [str "ts", str "proto"] = [0] ∧
      parseChunk (applyHeader [str "ts", str "proto"]) [] true
          (computePrintIndices [str "bogus"] [str "ts", str "proto"])
          (str "1.0\ttcp") = .ok [str "1.0"] :=
  ⟨by decide, rfl, rfl⟩

/-- Claim C4 (amended): a field referenced by an active filter — literal
or regex, at any position of a field list of any arity — that is absent
from the field index is fatal rather than ever resolving wrongly: such a
filter can never evaluate to `true` (for any non-empty value list, since
the lookup happens inside the value loop), and as soon as evaluation
reaches the field (in particular whenever it heads the field list)
`Linedata.get` prints a diagnostic and exits with the missing-field
fault, for literal and regex filters alike; a projection field absent
from the header, however, does *not* fail: its print index silently
stays 0, selecting the first column. -/
theorem missing_field_filter_fatal_projection_silent :
    (∀ (α : Type) (im : Indexmap) (cmp : GoStr → α → Bool)
        (data : Linedata) (f : GoStr) (fields : List GoStr) (vals : List α),
      f ∈ fields → vals ≠ [] → List.lookup f im = none →
        filterPasses im cmp data fields vals ≠ .ok true)
    ∧ (∀ (α : Type) (im : Indexmap) (cmp : GoStr → α → Bool)
        (data : Linedata) (f : GoStr) (fs : List GoStr) (v : α)
        (vs : List α), List.lookup f im = none →
      filterPasses im cmp data (f :: fs) (v :: vs) =
        .error (.fatalMissingField f))
    ∧ (∀ (im : Indexmap) (f : GoStr) (fs : List GoStr) (v : GoStr)
        (vs : List GoStr) (neg : Bool) (data : Linedata),
      List.lookup f im = none →
        BaseFilter.Passes im (.lit (f :: fs) (v :: vs) neg) data =
          .error (.fatalMissingField f))
    ∧ (∀ (im : Indexmap) (f : GoStr) (fs : List GoStr) (re : GoRegex)
        (res : List GoRegex) (neg : Bool) (data : Linedata),
      List.lookup f im = none →
        BaseFilter.Passes im (.rex (f :: fs) (re :: res) neg) data =
          .error (.fatalMissingField f))
    ∧ (∀ (header : List GoStr) (f : GoStr), (∀ h ∈ header, f ≠ h) →
        resolveField header f = 0) := by
  refine ⟨?_, ?_, ?_, ?_, ?_⟩
  · intro α im cmp data f fields vals hf hvals hlook h
    obtain ⟨v, hv⟩ := List.exists_mem_of_ne_nil vals hvals
    obtain ⟨s, hs, _⟩ :=
      (filterPasses_ok_true_iff im cmp data fields vals).mp h f hf v hv
    simp [Linedata.get, hlook] at hs
  · intro α im cmp data f fs v vs hlook
    simp [filterPasses, passesVals, Linedata.get, hlook]
  · intro im f fs v vs neg data hlook
    cases neg <;>
      simp [BaseFilter.Passes, filterPasses, passesVals, Linedata.get, hlook]
  · intro im f fs re res neg data hlook
    cases neg <;>
      simp [BaseFilter.Passes, filterPasses, passesVals, Linedata.get, hlook]
  · intro header f hnot
    unfold resolveField
    exact resolveField_enumFrom f header 0 0 hnot

/-- Witness for C4's amended theorem: with an empty index map the field
`"q"` never lets a filter pass, a multi-field literal filter and a regex
filter headed by `"q"` both exit with the missing-field fault, and the
absent projection field `"q"` resolves to column 0 against the header
`[ts]`. -/
theorem missing_field_filter_fatal_projection_silent_witness :
    List.lookup (str "q") ([] : Indexmap) = none ∧
      filterPasses ([] : Indexmap) cmpEq [] [str "q"] [str "1"] ≠ .ok true ∧
      BaseFilter.Passes [] (.lit [str "q", str "b"] [str "1"] false) [] =
        .error (.fatalMissingField (str "q")) ∧
      BaseFilter.Passes []
          (.rex [str "q"] [regexpCompile (str "^80$")] true) [] =
        .error (.fatalMissingField (str "q")) ∧
      resolveField [str "ts"] (str "q") = 0 :=
  ⟨rfl,
    missing_field_filter_fatal_projection_silent.1 GoStr [] cmpEq []
      (str "q") [str "q"] [str "1"] (by decide) (by decide) rfl,
    missing_field_filter_fatal_projection_silent.2.2.1 [] (str "q")
      [str "b"] (str "1") [] false [] rfl,
    missing_field_filter_fatal_projection_silent.2.2.2.1 [] (str "q") []
      (regexpCompile (str "^80$")) [] true [] rfl,
    missing_field_filter_fatal_projection_silent.2.2.2.2 [str "ts"]
      (str "q") (by decide)⟩

/-- Claim C7: `~` filters perform genuine regular-expression matching, not
substring or literal comparison — a `~` filter whose (once-compiled)
pattern is `^80$` passes any record whose referenced field holds `80` and
rejects any record whose field holds `8080` — and the `!~` comparison
function is the exact negation of the `~` one. -/
theorem regex_filter_true_matching :
    (∀ (im : Indexmap) (data : Linedata) (f : GoStr),
      Linedata.get data im f = .ok (str "80") →
        BaseFilter.Passes im
          (.rex [f] [regexpCompile (str "^80$")] false) data = .ok true)
    ∧ (∀ (im : Indexmap) (data : Linedata) (f : GoStr),
        Linedata.get data im f = .ok (str "8080") →
          BaseFilter.Passes im
            (.rex [f] [regexpCompile (str "^80$")] false) data = .ok false)
    ∧ (∀ (s : GoStr) (re : GoRegex), cmpNotMatch s re = !(cmpMatch s re)) := by
  refine ⟨?_, ?_, fun s re => rfl⟩
  · intro im data f h
    simp only [BaseFilter.Passes, filterPasses, passesVals, h]
    rfl
  · intro im data f h
    simp only [BaseFilter.Passes, filterPasses, passesVals, h]
    rfl

/-- Witness for C7 at a concrete index map and records holding `80` and
`8080`. -/
theorem regex_filter_true_matching_witness :
    Linedata.get [str "80"] [(str "p", 0)] (str "p") = .ok (str "80") ∧
      BaseFilter.Passes [(str "p", 0)]
        (.rex [str "p"] [regexpCompile (str "^80$")] false) [str "80"] =
          .ok true ∧
      Linedata.get [str "8080"] [(str "p", 0)] (str "p") =
        .ok (str "8080") ∧
      BaseFilter.Passes [(str "p", 0)]
        (.rex [str "p"] [regexpCompile (str "^80$")] false) [str "8080"] =
          .ok false :=
  ⟨rfl, regex_filter_true_matching.1 [(str "p", 0)] [str "80"] (str "p") rfl,
    rfl,
    regex_filter_true_matching.2.1 [(str "p", 0)] [str "8080"] (str "p") rfl⟩

/-- Claim C8: with header `[ts, id.orig_h, id.resp_h]` and requested
fields `[id.resp_h, ts]`, the resolved print indices are `[2, 0]`, the
projection of any record `[a, b, c]` is `[c, a]` — the requested order,
not header order — and a concrete passing record is emitted as the
selected fields tab-joined in that order. -/
theorem projection_requested_order :
    computePrintIndices [str "id.resp_h", str "ts"]
        [str "ts", str "id.orig_h", str "id.resp_h"] = [2, 0]
    ∧ (∀ a b c : GoStr,
        projectFields
          (computePrintIndices [str "id.resp_h", str "ts"]
            [str "ts", str "id.orig_h", str "id.resp_h"]) [a, b, c] =
          .ok [c, a])
    ∧ parseLine (applyHeader [str "ts", str "id.orig_h", str "id.resp_h"])
        [] true [2, 0] (str "1.0\tAAA\tBBB") = .ok (some (str "BBB\t1.0")) :=
  ⟨rfl, fun _ _ _ => rfl, rfl⟩

/-- Claim C10: a record with no more fields than the resolved index of a
field referenced by a filter makes `FilterSet.Passes` hit the unguarded
`self[idx]` access in `Linedata.get` — the evaluation panics instead of
skipping or rejecting the short row. -/
theorem short_record_filter_panics (im : Indexmap) (f : GoStr) (idx : Nat)
    (data : Linedata) (v : GoStr) (vs : List GoStr) (neg : Bool)
    (hlook : List.lookup f im = some idx) (hshort : data.length ≤ idx) :
    FilterSet.Passes im [.lit [f] (v :: vs) neg] data =
      .error .panicIndex := by
  have hnone : data[idx]? = none := List.getElem?_eq_none hshort
  cases neg <;>
    simp [FilterSet.Passes, BaseFilter.Passes, filterPasses, passesVals,
      Linedata.get, hlook, hnone]

/-- Witness for C10: header maps field `"p"` to column 1 but the record
has a single field, so the filter evaluation panics. -/
theorem short_record_filter_panics_witness :
    List.lookup (str "p") [(str "t", 0), (str "p", 1)] = some 1 ∧
      ([str "x"] : Linedata).length ≤ 1 ∧
      FilterSet.Passes [(str "t", 0), (str "p", 1)]
          (.lit [str "p"] [str "80"] false :: []) [str "x"] =
        .error .panicIndex :=
  ⟨rfl, by decide,
    short_record_filter_panics [(str "t", 0), (str "p", 1)] (str "p") 1
      [str "x"] (str "80") [] false rfl (by decide)⟩

--------------------------------------------------------------------------------
-- Bounded Dispatcher (Parser.Start in qreader.go / logreader.go)
--------------------------------------------------------------------------------

/-- Where the dispatch loop of `Parser.Start` stands: between chunks
(`waiting`), having received a chunk from the channel (`gotChunk`), having
sent into the capacity-`P` `limiter` channel but not yet launched the
goroutine (`acquiredSlot`), past the (closed and drained) channel polling
the limiter (`draining`), or returned (`done`). -/
inductive DPhase where
  | waiting
  | gotChunk
  | acquiredSlot
  | draining
  | done
deriving DecidableEq

/-- A snapshot of one file's dispatch: chunks not yet received, current
occupancy of the `limiter` channel, number of `Parse` goroutines in
flight, and the dispatcher's position. -/
structure DState where
  pending : Nat
  limiter : Nat
  running : Nat
  phase : DPhase
deriving DecidableEq

/-- The interleaving semantics of `Parser.Start` together with its `Parse`
goroutines: the dispatcher receives a chunk, sends into the buffered
`limiter` channel (blocking while it holds `P` tokens), and launches the
task; a running task's final action is to take its token back out of the
limiter and terminate (one atomic step, as no observable action follows
the receive in `Parse`); when the chunk channel is closed and drained the
dispatcher polls and only returns once `len(limiter) == 0`. -/
inductive DStep (P : Nat) : DState → DState → Prop where
  | recv (p l r : Nat) :
      DStep P ⟨p + 1, l, r, .waiting⟩ ⟨p, l, r, .gotChunk⟩
  | acquire (p l r : Nat) (h : l < P) :
      DStep P ⟨p, l, r, .gotChunk⟩ ⟨p, l + 1, r, .acquiredSlot⟩
  | launch (p l r : Nat) :
      DStep P ⟨p, l, r, .acquiredSlot⟩ ⟨p, l, r + 1, .waiting⟩
  | finish (p l r : Nat) (ph : DPhase) :
      DStep P ⟨p, l + 1, r + 1, ph⟩ ⟨p, l, r, ph⟩
  | chanClosed (l r : Nat) :
      DStep P ⟨0, l, r, .waiting⟩ ⟨0, l, r, .draining⟩
  | complete (p r : Nat) :
      DStep P ⟨p, 0, r, .draining⟩ ⟨p, 0, r, .done⟩

/-- States reachable while processing a file of `n` chunks with parser
pool size `P`, starting from the idle dispatcher. -/
def DReach (P n : Nat) : DState → Prop :=
  Relation.ReflTransGen (DStep P) ⟨n, 0, 0, .waiting⟩

/-- The one limiter token held by the dispatcher itself between its send
and the `go` statement. -/
def phaseSlack : DPhase → Nat
  | .acquiredSlot => 1
  | _ => 0

/-- Gate accounting invariant: the limiter never exceeds its capacity,
every held token belongs to a running task or to the dispatcher
mid-launch, and a completed run holds no token. -/
def DInv (P : Nat) (s : DState) : Prop :=
  s.limiter ≤ P ∧ s.limiter = s.running + phaseSlack s.phase ∧
    (s.phase = .done → s.limiter = 0)

theorem dstep_preserves_inv {P : Nat} {s t : DState} (hst : DStep P s t)
    (hinv : DInv P s) : DInv P t := by
  obtain ⟨h1, h2, h3⟩ := hinv
  cases hst with
  | recv p l r =>
    refine ⟨h1, ?_, by intro hc; cases hc⟩
    simpa [phaseSlack] using h2
  | acquire p l r h =>
    refine ⟨h, ?_, by intro hc; cases hc⟩
    simp only [phaseSlack] at h2 ⊢
    omega
  | launch p l r =>
    refine ⟨h1, ?_, by intro hc; cases hc⟩
    simp only [phaseSlack] at h2 ⊢
    omega
  | finish p l r ph =>
    have h1' : l + 1 ≤ P := h1
    have h2' : l + 1 = r + 1 + phaseSlack ph := h2
    have h3' : ph = .done → l + 1 = 0 := h3
    refine ⟨show l ≤ P by omega, show l = r + phaseSlack ph by omega, ?_⟩
    intro hd
    exact absurd (h3' hd) (by omega)
  | chanClosed l r =>
    refine ⟨h1, ?_, by intro hc; cases hc⟩
    simpa [phaseSlack] using h2
  | complete p r =>
    refine ⟨Nat.zero_le P, ?_, fun _ => rfl⟩
    simp only [phaseSlack] at h2 ⊢
    omega

theorem dreach_inv {P n : Nat} {s : DState} (h : DReach P n s) : DInv P s := by
  induction h with
  | refl => exact ⟨Nat.zero_le P, rfl, by intro hc; cases hc⟩
  | tail _ hbc ih => exact dstep_preserves_inv hbc ih

/-- Claim C9: in every reachable state of one file's dispatch, the number
of row-processing tasks in flight never exceeds the parser pool size `P`
(each task's slot is taken from the capacity-`P` limiter before it starts
and returned on completion), and the dispatcher only declares the file
complete once the gate occupancy — and hence the number of in-flight
tasks — is zero. -/
theorem dispatcher_bounded_concurrency (P n : Nat) (s : DState)
    (h : DReach P n s) :
    s.running ≤ P ∧ (s.phase = .done → s.running = 0) := by
  obtain ⟨h1, h2, h3⟩ := dreach_inv h
  constructor
  · omega
  · intro hd
    have h0 := h3 hd
    omega

/-- Witness for C9: a concrete run with pool size 3 that receives a chunk,
acquires a slot and launches the task, reaching one in-flight task. -/
theorem dispatcher_bounded_concurrency_witness :
    (⟨4, 1, 1, DPhase.waiting⟩ : DState).running ≤ 3 ∧
      ((⟨4, 1, 1, DPhase.waiting⟩ : DState).phase = .done →
        (⟨4, 1, 1, DPhase.waiting⟩ : DState).running = 0) :=
  dispatcher_bounded_concurrency 3 5 ⟨4, 1, 1, .waiting⟩
    (Relation.ReflTransGen.tail
      (Relation.ReflTransGen.tail
        (Relation.ReflTransGen.tail Relation.ReflTransGen.refl
          (DStep.recv 4 0 0))
        (DStep.acquire 4 0 0 (by decide)))
      (DStep.launch 4 1 0))
